import Mathlib

/-!
Verification of the readline completion engine, display engine and line
tokenisers against their natural-language specification.

The Go source is shallowly embedded: runes are `Char`, Go strings and rune
slices are `List Char`, buffer/cursor pairs are explicit fields, and Go
runtime panics (out-of-range indexing or slicing) are modelled by `Option`
results (`none` = panic).  Helpers of this repository that live outside the
provided source files (the `core.Line`/`core.Cursor` buffer operations, the
`SuffixMatcher.Matches` predicate, the candidate store's `currentGroup`,
`selected`, `hasUniqueCandidate`, `noCompletions`, `ClearMenu`, `ResetForce`
and `Cancel`) are modelled from the specification and are marked as such in
their doc comments.
-/

/-- Go's `unicode.IsSpace` on the Unicode White_Space code points, used by
`TrimSuffix` for the "typed key is whitespace" test. -/
def isSpace (r : Char) : Bool :=
  r = ' ' || r = '\t' || r = '\n' || r = Char.ofNat 11 || r = Char.ofNat 12 || r = '\r' ||
    r = Char.ofNat 0x85 || r = Char.ofNat 0xA0 || r = Char.ofNat 0x1680 ||
    (0x2000 ≤ r.toNat && r.toNat ≤ 0x200A) ||
    r = Char.ofNat 0x2028 || r = Char.ofNat 0x2029 || r = Char.ofNat 0x202F ||
    r = Char.ofNat 0x205F || r = Char.ofNat 0x3000

/-- Translation of `isPunctuation` from `tokenise.go`: non-blank word
delimiters, given by ASCII code ranges. -/
def isPunctuation (r : Char) : Bool :=
  (33 ≤ r.toNat && r.toNat ≤ 47) || (58 ≤ r.toNat && r.toNat ≤ 64) ||
    (91 ≤ r.toNat && r.toNat ≤ 94) || r.toNat = 96 || (123 ≤ r.toNat && r.toNat ≤ 126)

/-- Loop state of the tokenisers in `tokenise.go`.  The Go code mutates the
last element of `split`; we keep the segments in reverse order (`revSplit`),
so the segment currently being extended is the head.  The real segment list
is `revSplit.reverse`.  `prev` caches `line[i-1]` (`none` at `i = 0`). -/
structure TokSt where
  revSplit : List (List Char)
  punc : Bool
  prev : Option Char
  index : Nat
  pos : Nat
  deriving DecidableEq, Repr

/-- Appending one rune to the last segment (`split[len(split)-1] += string(r)`
in the Go source), on the reversed segment list. -/
def appendHead : List (List Char) → Char → List (List Char)
  | [], r => [[r]]
  | s :: rest, r => (s ++ [r]) :: rest

/-- Initial loop state: `split := make([]string, 1)` is one empty segment. -/
def tokInit : TokSt := ⟨[[]], false, none, 0, 0⟩

/-- Bookkeeping shared by both tokeniser loops: when the loop index reaches
`linePos`, record the current segment index and the position within that
segment (`len(split[index]) - 1` in the Go source, since the rune at
`linePos` was just appended to the last segment). -/
def tokFinish (linePos i : Nat) (st1 : TokSt) : TokSt :=
  if i = linePos then
    { st1 with index := st1.revSplit.length - 1, pos := (st1.revSplit.headD []).length - 1 }
  else st1

/-- One iteration of the `tokeniseLine` loop in `tokenise.go`, for the rune
`ir.2` at index `ir.1`.  The three branches are the punctuation, blank and
default cases; `tokFinish` is the `i == linePos` bookkeeping. -/
def tokeniseLineStep (linePos : Nat) (st : TokSt) (ir : Nat × Char) : TokSt :=
  let r := ir.2
  let split1 :=
    if isPunctuation r then
      appendHead (if st.prev ≠ none ∧ st.prev ≠ some r then [] :: st.revSplit else st.revSplit) r
    else if r = ' ' ∨ r = '\t' ∨ r = '\n' then
      appendHead st.revSplit r
    else
      appendHead (if st.punc then [] :: st.revSplit else st.revSplit) r
  let punc1 :=
    if isPunctuation r then true
    else if r = ' ' ∨ r = '\t' ∨ r = '\n' then true
    else false
  tokFinish linePos ir.1
    { revSplit := split1, punc := punc1, prev := some r, index := st.index, pos := st.pos }

/-- Result packaging shared by both tokenisers: the adjustment after the
loop (`if linePos == len(line)` in the Go source) places the cursor at the
very end of the last segment when it sits one past the last rune. -/
def tokeniseResult (line : List Char) (linePos : Nat) (st : TokSt) :
    List (List Char) × Nat × Nat :=
  let split := st.revSplit.reverse
  if linePos = line.length then
    (split, split.length - 1, (st.revSplit.headD []).length)
  else
    (split, st.index, st.pos)

/-- Translation of `tokeniseLine` from `tokenise.go`: split on punctuation
runs and blanks, also reporting which segment the cursor is in and where. -/
def tokeniseLine (line : List Char) (linePos : Nat) : List (List Char) × Nat × Nat :=
  if line = [] then ([], 0, 0)
  else tokeniseResult line linePos (line.enum.foldl (tokeniseLineStep linePos) tokInit)

/-- One iteration of the `tokeniseSplitSpaces` loop in `tokenise.go`. -/
def tokeniseSplitSpacesStep (linePos : Nat) (st : TokSt) (ir : Nat × Char) : TokSt :=
  let r := ir.2
  let split1 :=
    if r = ' ' ∨ r = '\t' ∨ r = '\n' then
      appendHead st.revSplit r
    else
      appendHead
        (if st.prev = some ' ' ∨ st.prev = some '\t' ∨ st.prev = some '\n' then
          [] :: st.revSplit
        else st.revSplit) r
  tokFinish linePos ir.1
    { revSplit := split1, punc := st.punc, prev := some r, index := st.index, pos := st.pos }

/-- Translation of `tokeniseSplitSpaces` from `tokenise.go`: split the line
on blank runs only. -/
def tokeniseSplitSpaces (line : List Char) (linePos : Nat) : List (List Char) × Nat × Nat :=
  if line = [] then ([], 0, 0)
  else tokeniseResult line linePos (line.enum.foldl (tokeniseSplitSpacesStep linePos) tokInit)

namespace Completion

/-- A completion candidate.  Only the `Value` field is consumed by the code
under verification; the display/description/style fields are omitted. -/
structure Candidate where
  Value : List Char
  deriving DecidableEq, Repr

/-- The suffix matcher recorded by `prepareSuffix` and consumed by
`TrimSuffix`: the group's separator set (or the wildcard `"*"`) together
with the position at which it was recorded. -/
structure SuffixMatcher where
  string : List Char
  pos : Nat
  deriving DecidableEq, Repr

/-- Modelled from the spec: a completion group is an ordered sequence of
candidates with a selection index that addresses an existing candidate
(§3 "Group"; the source's 2-D selection is flattened to one index) and the
group's `no-space-matcher` separator set. -/
structure Group where
  values : List Candidate
  sel : Nat
  noSpace : SuffixMatcher
  deriving DecidableEq, Repr

/-- Modelled from the spec: `Group.selected()` returns the candidate the
selection index addresses (§3: the index always addresses an existing
candidate; out-of-range defaults to an empty candidate). -/
def Group.selected (g : Group) : Candidate :=
  g.values.getD g.sel { Value := [] }

/-- The completion `Engine` state from `engine.go`, restricted to the fields
the claims are about.  `line`/`cursor` are the real buffer, `compLine` /
`compCursor` the shadow (virtual) buffer, `pfx`/`suffix` the completion
prefix and in-progress suffix (Go fields `prefix` and `suffix`),
`inserted` the candidate portion inserted over the prefix, `sm` the suffix
matcher.  `groups`/`groupIdx` model the candidate store, `keyCaller` is
`keys.Caller()[0]` (the key that triggered the current operation), and
`autoForce` is the forced-completion flag. -/
structure Engine where
  line : List Char
  cursor : Nat
  compLine : List Char
  compCursor : Nat
  selected : Candidate
  pfx : List Char
  suffix : List Char
  inserted : List Char
  sm : SuffixMatcher
  groups : List Group
  groupIdx : Nat
  keyCaller : Char
  autoForce : Bool
  deriving DecidableEq, Repr

/-- Modelled from the spec: `currentGroup()` yields the candidate store's
active group, or none when the index addresses no group. -/
def currentGroup (e : Engine) : Option Group :=
  e.groups[e.groupIdx]?

/-- Modelled from the spec: TextBuffer `cut-range(start, end)` removes the
runes in `[start, end)`; out-of-range indices are handled by clamping
(§4.1). -/
def lineCut (l : List Char) (start stop : Nat) : List Char :=
  l.take start ++ l.drop stop

/-- Modelled from the spec: TextBuffer `insert-at(pos, runes)` inserts the
runes at `pos`; out-of-range indices are handled by clamping (§4.1). -/
def lineInsert (l : List Char) (pos : Nat) (rs : List Char) : List Char :=
  l.take pos ++ rs ++ l.drop pos

/-- Modelled from the spec: `Line.CutRune(pos)` deletes the single rune at
`pos`. -/
def lineCutRune (l : List Char) (pos : Nat) : List Char :=
  l.take pos ++ l.drop (pos + 1)

/-- Translation of `notMatcher` from `engine.go`: true when the typed key is
none of the matcher runes. -/
def notMatcher (key : Char) (matchers : List Char) : Bool :=
  matchers.all (fun r => r ≠ key)

/-- Modelled from the spec: `SuffixMatcher.Matches` holds when the recorded
set is the wildcard or the typed key is a member of the recorded separator
set (§3 "SuffixMatcher", §4.3 "TrimSuffix"). -/
def SuffixMatcher.Matches (sm : SuffixMatcher) (key : Char) : Bool :=
  sm.string.any (fun r => r = '*' || r = key)

/-- Translation of `prepareSuffix` from `engine.go`.  All successful paths
return the full candidate value; the branches only decide whether the
suffix matcher is recorded.  `none` models the two Go runtime panics: an
empty candidate value (indexing `comp[len(comp)-1]`) and a prefix longer
than the candidate (slicing `comp[prefix:]`). -/
def prepareSuffix (e : Engine) : Option (Engine × List Char) :=
  match currentGroup e with
  | none => some (e, [])
  | some cur =>
    let comp := e.selected.Value
    let pfxLen := e.pfx.length
    if comp.length > 0 then
      if pfxLen > comp.length then none
      else if (comp.drop pfxLen).length ≤ 1 then some (e, comp)
      else
        let suffix := comp.getLastD ' '
        let key := e.keyCaller
        let sm1 : SuffixMatcher :=
          { cur.noSpace with pos := e.cursor + comp.length - pfxLen - 1 }
        let e1 : Engine := { e with sm := sm1 }
        if cur.noSpace.string = ['*'] ∧ suffix ≠ ' ' ∧ key = ' ' then some (e1, comp)
        else if suffix = '/' ∧ key ≠ ' ' ∧ notMatcher key cur.noSpace.string then some (e1, comp)
        else some (e1, comp)
    else none

/-- The suffix matcher recorded by `prepareSuffix` when it records one: the
group's separator set together with the end position of the candidate once
inserted over the prefix. -/
def recordedSM (e : Engine) (g : Group) : SuffixMatcher :=
  { string := g.noSpace.string,
    pos := e.cursor + e.selected.Value.length - e.pfx.length - 1 }

/-- Translation of `acceptCandidate` from `engine.go`: select the current
group's candidate, prepare its suffix, cut the in-progress suffix region
from the real line, insert the candidate minus the prefix at the cursor
(advancing it), re-insert the suffix, and clear the bookkeeping. -/
def acceptCandidate (e : Engine) : Option Engine :=
  match currentGroup e with
  | none => some e
  | some cur =>
    let e0 : Engine := { e with selected := cur.selected }
    match prepareSuffix e0 with
    | none => none
    | some (e1, completion) =>
      if e1.pfx.length > completion.length then none
      else
        let ins := completion.drop e1.pfx.length
        let line1 := lineCut e1.line e1.cursor (e1.cursor + e1.suffix.length)
        let line2 := lineInsert line1 e1.cursor ins
        let cur2 := e1.cursor + ins.length
        let line3 := lineInsert line2 cur2 e1.suffix
        some { e1 with
          line := line3, cursor := cur2, inserted := [], pfx := [], suffix := [] }

/-- Translation of `insertCandidate` from `engine.go`: same insertion as
`acceptCandidate` but performed on a fresh copy of the real line (the
shadow buffer), leaving the real line untouched. -/
def insertCandidate (e : Engine) : Option Engine :=
  match currentGroup e with
  | none => some e
  | some grp =>
    let e0 : Engine := { e with selected := grp.selected }
    if e0.selected.Value.length < e0.pfx.length then some e0
    else
      match prepareSuffix e0 with
      | none => none
      | some (e1, completion) =>
        if e1.pfx.length > completion.length then none
        else
          let ins := completion.drop e1.pfx.length
          let e2 : Engine := { e1 with inserted := ins }
          let cl0 := e2.line
          let cc0 := min e2.cursor cl0.length
          let cl1 := lineCut cl0 cc0 (cc0 + e2.suffix.length)
          let cl2 := lineInsert cl1 cc0 ins
          let cc2 := cc0 + ins.length
          let cl3 := lineInsert cl2 cc2 e2.suffix
          some { e2 with compLine := cl3, compCursor := cc2 }

/-- Translation of `cancelCompletedLine` from `engine.go`: overwrite the
shadow line with the real line, reset the shadow cursor to the real cursor
(`Cursor.Set` clamps, per the spec's buffer contract), and drop the
selected candidate. -/
def cancelCompletedLine (e : Engine) : Engine :=
  { e with compLine := e.line, compCursor := min e.cursor e.line.length,
           selected := { Value := [] } }

/-- Translation of `TrimSuffix` from `engine.go`: on the keystroke after an
acceptance, delete the kept separator before the cursor when the recorded
matcher is still valid and the typed key matches.  `none` models the Go
panic of indexing `(*e.line)[e.cursor.Pos()-1]` past the end of the line. -/
def TrimSuffix (e : Engine) : Option Engine :=
  if e.line.length = 0 ∨ e.cursor = 0 ∨ e.selected.Value.length > 0 then some e
  else if e.sm.pos ≠ e.cursor - 1 then some { e with sm := { string := [], pos := 0 } }
  else
    match e.line[e.cursor - 1]? with
    | none => none
    | some suf =>
      let key := e.keyCaller
      if suf = '/' ∧ key ≠ ' ' ∧ notMatcher key e.sm.string then some e
      else if e.sm.Matches key ∨ isSpace key then
        some { e with cursor := e.cursor - 1, line := lineCutRune e.line (e.cursor - 1) }
      else some e

/-- Modelled from the spec: `Cancel` restores the shadow buffer to mirror
the real buffer, discards the selected candidate and clears the completion
bookkeeping (§4.3 "Previewing → Cancelled"). -/
def cancelCompletion (e : Engine) : Engine :=
  { e with compLine := e.line, compCursor := min e.cursor e.line.length,
           selected := { Value := [] }, inserted := [], pfx := [], suffix := [] }

/-- Modelled from the spec: `ClearMenu` drops the generated candidate groups
(the completion menu). -/
def clearMenu (e : Engine) : Engine :=
  { e with groups := [], groupIdx := 0 }

/-- Modelled from the spec: `ResetForce` clears the forced-completion flag. -/
def resetForce (e : Engine) : Engine :=
  { e with autoForce := false }

/-- Modelled from the spec: `noCompletions()` holds when the generation
result is empty, i.e. no candidate exists in any group (§4.3 failure
semantics). -/
def noCompletions (e : Engine) : Bool :=
  (e.groups.map (fun g => g.values.length)).sum = 0

/-- Modelled from the spec: `hasUniqueCandidate()` returns true iff exactly
one candidate exists across all groups (§4.2). -/
def hasUniqueCandidate (e : Engine) : Bool :=
  (e.groups.map (fun g => g.values.length)).sum = 1

/-- The suffix-matcher state after a candidate is prepared on `e` for the
group `g`: untouched when the candidate minus the prefix is at most one
rune, the recorded matcher otherwise. -/
def smAfter (e : Engine) (g : Group) : SuffixMatcher :=
  if ((Group.selected g).Value.drop e.pfx.length).length ≤ 1 then e.sm
  else recordedSM { e with selected := Group.selected g } g

/-- The engine state `acceptCandidate` produces on a well-formed accept:
the real line with the suffix region cut, the candidate minus the prefix
inserted at the cursor (which advances over it) and the suffix re-inserted,
with the bookkeeping cleared. -/
def acceptResult (e : Engine) (g : Group) : Engine :=
  let ins := (Group.selected g).Value.drop e.pfx.length
  { e with
    selected := Group.selected g,
    sm := smAfter e g,
    line := lineInsert
      (lineInsert (lineCut e.line e.cursor (e.cursor + e.suffix.length)) e.cursor ins)
      (e.cursor + ins.length) e.suffix,
    cursor := e.cursor + ins.length,
    inserted := [], pfx := [], suffix := [] }

/-- The engine state `insertCandidate` produces on a well-formed preview:
the same insertion as `acceptResult`, but performed on the shadow line,
with the real line untouched. -/
def insertResult (e : Engine) (g : Group) : Engine :=
  let ins := (Group.selected g).Value.drop e.pfx.length
  let cc0 := min e.cursor e.line.length
  { e with
    selected := Group.selected g,
    sm := smAfter e g,
    inserted := ins,
    compLine := lineInsert
      (lineInsert (lineCut e.line cc0 (cc0 + e.suffix.length)) cc0 ins)
      (cc0 + ins.length) e.suffix,
    compCursor := cc0 + ins.length }

/-- Translation of `refreshLine` from `engine.go`: cancel on an empty
generation result, accept outright when the candidate is unique (clearing
the menu and the force flag), otherwise insert the candidate virtually. -/
def refreshLine (e : Engine) : Option Engine :=
  if noCompletions e then some (cancelCompletion e)
  else if (currentGroup e).isNone then some e
  else if hasUniqueCandidate e then
    match acceptCandidate e with
    | none => none
    | some e1 => some (resetForce (clearMenu e1))
  else insertCandidate e

/-- Concrete group used to exercise the accept/preview path: one candidate
`"local/"` with separator set `"/"`. -/
def wc1g : Group :=
  { values := [{ Value := ['l', 'o', 'c', 'a', 'l', '/'] }], sel := 0,
    noSpace := { string := ['/'], pos := 0 } }

/-- Concrete engine state previewing against the line `"cd lo"` with the
completion prefix `"lo"`. -/
def wc1e : Engine :=
  { line := ['c', 'd', ' ', 'l', 'o'], cursor := 5, compLine := [], compCursor := 0,
    selected := { Value := [] }, pfx := ['l', 'o'], suffix := [], inserted := [],
    sm := { string := [], pos := 0 }, groups := [wc1g], groupIdx := 0,
    keyCaller := 'x', autoForce := false }

/-- The state after previewing the candidate of `wc1e`. -/
def wc1i : Engine := (insertCandidate wc1e).getD wc1e

/-- The state after accepting the previewed candidate of `wc1i`. -/
def wc1a : Engine := (acceptCandidate wc1i).getD wc1e

/-- Concrete state on which the claimed unconditional suffix trim fails:
the rune before the cursor is the kept path separator `'/'` and the typed
key is the (whitespace) tab, which is not in the separator set. -/
def cc2e : Engine :=
  { line := ['a', '/'], cursor := 2, compLine := [], compCursor := 0,
    selected := { Value := [] }, pfx := [], suffix := [], inserted := [],
    sm := { string := ['/'], pos := 1 }, groups := [], groupIdx := 0,
    keyCaller := Char.ofNat 9, autoForce := false }

/-- Concrete state on which the amended suffix trim deletes the duplicate
separator: line `"cd a/"`, matcher `"/"` recorded at 4, typed key `'/'`. -/
def wc2e : Engine :=
  { line := ['c', 'd', ' ', 'a', '/'], cursor := 5, compLine := [], compCursor := 0,
    selected := { Value := [] }, pfx := [], suffix := [], inserted := [],
    sm := { string := ['/'], pos := 4 }, groups := [], groupIdx := 0,
    keyCaller := '/', autoForce := false }

/-- Concrete engine used to witness the cancel round-trip. -/
def wc3e : Engine :=
  { line := ['c', 'd', ' ', 'l', 'o'], cursor := 5, compLine := ['z'], compCursor := 1,
    selected := { Value := [] }, pfx := ['l', 'o'], suffix := ['q'], inserted := [],
    sm := { string := [], pos := 0 }, groups := [wc1g], groupIdx := 0,
    keyCaller := 'x', autoForce := false }

/-- The state after previewing the candidate of `wc3e`. -/
def wc3i : Engine := (insertCandidate wc3e).getD wc3e

/-- Concrete engine used to witness the accept step description: line
`"ab XY"` with cursor inside, a pending suffix region `"XY"` and candidate
`"abcd"` over prefix `"ab"`. -/
def wc4g : Group :=
  { values := [{ Value := ['a', 'b', 'c', 'd'] }], sel := 0,
    noSpace := { string := ['/'], pos := 0 } }

def wc4e : Engine :=
  { line := ['a', 'b', 'X', 'Y'], cursor := 2, compLine := [], compCursor := 0,
    selected := { Value := [] }, pfx := ['a', 'b'], suffix := ['X', 'Y'], inserted := [],
    sm := { string := [], pos := 0 }, groups := [wc4g], groupIdx := 0,
    keyCaller := 'x', autoForce := false }

/-- Concrete engine whose candidate set has exactly one candidate across
all groups, for the unique-candidate shortcut. -/
def wc5g : Group :=
  { values := [{ Value := ['a', 'b', 'c'] }], sel := 0,
    noSpace := { string := ['/'], pos := 0 } }

def wc5e : Engine :=
  { line := ['a'], cursor := 1, compLine := ['z'], compCursor := 0,
    selected := { Value := [] }, pfx := ['a'], suffix := [], inserted := [],
    sm := { string := [], pos := 0 }, groups := [wc5g], groupIdx := 0,
    keyCaller := 'x', autoForce := true }

/-- Concrete state on which the claimed keep-separator rule fails: the key
is the space character, outside the separator set, yet the trailing `'/'`
is deleted. -/
def cc6e : Engine :=
  { line := ['a', '/'], cursor := 2, compLine := [], compCursor := 0,
    selected := { Value := [] }, pfx := [], suffix := [], inserted := [],
    sm := { string := ['/'], pos := 1 }, groups := [], groupIdx := 0,
    keyCaller := ' ', autoForce := false }

/-- Concrete acceptance-time state witnessing the amended keep-separator
rule's `prepareSuffix` part: a candidate `"a/"` is still selected. -/
def wc6g : Group :=
  { values := [{ Value := ['a', '/'] }], sel := 0,
    noSpace := { string := ['/'], pos := 0 } }

def wc6e : Engine :=
  { line := ['a', '/'], cursor := 2, compLine := [], compCursor := 0,
    selected := { Value := ['a', '/'] }, pfx := [], suffix := [], inserted := [],
    sm := { string := ['/'], pos := 1 }, groups := [wc6g], groupIdx := 0,
    keyCaller := 'x', autoForce := false }

/-- Concrete post-acceptance state witnessing the amended keep-separator
rule's `TrimSuffix` part: the selection is cleared, the matcher `"/"` is
still valid at `cursor - 1`, and the typed key `'x'` is neither a
separator nor space, so only the path special case keeps the `'/'`. -/
def wc6t : Engine :=
  { line := ['a', '/'], cursor := 2, compLine := [], compCursor := 0,
    selected := { Value := [] }, pfx := [], suffix := [], inserted := [],
    sm := { string := ['/'], pos := 1 }, groups := [], groupIdx := 0,
    keyCaller := 'x', autoForce := false }

/-- Concrete state on which the claimed short-candidate rule fails: the
selected candidate is empty (stripped portion of length 0), and
`prepareSuffix` panics instead of leaving the state untouched. -/
def cc7g : Group :=
  { values := [{ Value := [] }], sel := 0, noSpace := { string := ['/'], pos := 0 } }

def cc7e : Engine :=
  { line := [], cursor := 0, compLine := [], compCursor := 0,
    selected := { Value := [] }, pfx := [], suffix := [], inserted := [],
    sm := { string := [], pos := 0 }, groups := [cc7g], groupIdx := 0,
    keyCaller := 'x', autoForce := false }

/-- Concrete state witnessing the amended `prepareSuffix` rule, in the
short-candidate branch. -/
def wc7g : Group :=
  { values := [{ Value := ['a', 'b'] }], sel := 0,
    noSpace := { string := ['/'], pos := 0 } }

def wc7e : Engine :=
  { line := ['a'], cursor := 1, compLine := [], compCursor := 0,
    selected := { Value := ['a', 'b'] }, pfx := ['a'], suffix := [], inserted := [],
    sm := { string := [], pos := 0 }, groups := [wc7g], groupIdx := 0,
    keyCaller := 'x', autoForce := false }

/-- Concrete state on which the claimed unconditional orphan clearing
fails: a candidate is still selected, so the guards return early and the
orphaned matcher is left in place. -/
def cc9e : Engine :=
  { line := ['a', 'b'], cursor := 2, compLine := [], compCursor := 0,
    selected := { Value := ['x'] }, pfx := [], suffix := [], inserted := [],
    sm := { string := ['/'], pos := 5 }, groups := [], groupIdx := 0,
    keyCaller := 'x', autoForce := false }

/-- Concrete state witnessing the amended orphan clearing. -/
def wc9e : Engine :=
  { line := ['a'], cursor := 1, compLine := [], compCursor := 0,
    selected := { Value := [] }, pfx := [], suffix := [], inserted := [],
    sm := { string := ['/'], pos := 5 }, groups := [], groupIdx := 0,
    keyCaller := 'x', autoForce := false }

end Completion

namespace Display

/-- One terminal operation emitted during a repaint.  Each constructor
records the call made on the `term` package (or the print performed), with
its argument. -/
inductive TOp where
  | hideCursor
  | showCursor
  | moveUp (n : Nat)
  | moveDown (n : Nat)
  | moveBackwards (n : Nat)
  | moveForwards (n : Nat)
  | printText (s : List Char)
  | printRightPrompt (col : Nat)
  | printHint
  | printCompletions (lines : Int)
  | newline
  deriving DecidableEq, Repr

/-- The display `Engine` state from `engine.go`: the geometry snapshot
retained between repaints, plus the buffer view fetched from the completion
engine on the last repaint. -/
structure Engine where
  startCols : Nat
  startRows : Nat
  lineCol : Nat
  lineRows : Nat
  cursorRow : Nat
  cursorCol : Nat
  compRows : Nat
  line : List Char
  cursor : Nat
  suggested : List Char
  deriving DecidableEq, Repr

/-- External inputs of one `Refresh` call: terminal width and height, the
cursor-position query result (`none` models the failed query that Go
reports as `-1`), the prompt's last used column, the authoritative buffer
and cursor from the completion engine (`completer.Line()`), whether a
candidate is virtually inserted, the history suggestion, the
`history-autosuggest` option, the externally-highlighted rendering of the
line, and the hint/completion row counts produced by the helpers. -/
structure Env where
  width : Nat
  termHeight : Nat
  queryPos : Option (Nat × Nat)
  promptLastUsed : Nat
  completerLine : List Char
  completerCursor : Nat
  isInserting : Bool
  histSuggest : List Char
  autosuggest : Bool
  highlighted : List Char
  hintRows : Nat
  compRowsNew : Nat
  deriving DecidableEq, Repr

/-- Modelled from the spec: `Coordinates` maps a rune count to a terminal
column/row from the total offset `T = start_column + count`: `column = T %
width`, `row = T / width`, with `width = 0` treated as an unbounded single
row (§3 "Coordinates", §4.1). -/
def coordinates (startCols width count : Nat) : Nat × Nat :=
  if width = 0 then (startCols + count, 0)
  else ((startCols + count) % width, (startCols + count) / width)

/-- Translation of `CursorToLineStart` from `engine.go`: move back by the
tracked cursor column, up by the tracked cursor row, and forward to just
after the prompt. -/
def CursorToLineStart (e : Engine) : List TOp :=
  [TOp.moveBackwards e.cursorCol, TOp.moveUp e.cursorRow, TOp.moveForwards (e.startCols - 1)]

/-- Translation of `computeCoordinates` from `engine.go`: fetch the
authoritative line/cursor from the completion engine, query the terminal
for the prompt end (falling back to the prompt's last used column on
failure), and recompute all cursor and line-end coordinates. -/
def computeCoordinates (env : Env) (e : Engine) : Engine :=
  let line := env.completerLine
  let cursor := env.completerCursor
  let suggested := if env.isInserting then line else env.histSuggest
  let startCols := match env.queryPos with
    | some qp => qp.1
    | none => env.promptLastUsed
  let startRows := match env.queryPos with
    | some qp => qp.2
    | none => e.startRows
  let cc := coordinates startCols env.width cursor
  let lc :=
    if env.autosuggest then coordinates startCols env.width suggested.length
    else coordinates startCols env.width line.length
  { e with line := line, cursor := cursor, suggested := suggested,
           startCols := startCols, startRows := startRows,
           cursorCol := cc.1, cursorRow := cc.2, lineCol := lc.1, lineRows := lc.2 }

/-- Translation of `displayLine` from `engine.go`: print the highlighted
line, extended with the dimmed remainder of the history suggestion when
autosuggest is on, then compensate when the line ends exactly at the
terminal width. -/
def displayLine (env : Env) (e : Engine) : Engine × List TOp :=
  let line0 := env.highlighted
  let line1 :=
    if e.suggested.length > e.line.length ∧ env.autosuggest then
      line0 ++ e.suggested.drop e.line.length
    else line0
  let e1 : Engine := { e with suggested := line1 }
  (e1, [TOp.printText line1] ++
    (if e.lineCol = 0 ∧ e.cursorCol = 0 ∧ e.cursorRow > 1 then [TOp.newline] else []))

/-- Translation of `displayHelpers` from `engine.go`: go below the line,
display the hint and the completion menu inside the computed row budget,
record the painted completion rows, and come back up. -/
def displayHelpers (env : Env) (e : Engine) : Engine × List TOp :=
  let compLines0 : Int :=
    (env.termHeight : Int) - (e.startRows : Int) - (e.lineRows : Int) - (env.hintRows : Int) - 1
  let compLines : Int :=
    if compLines0 < (env.termHeight : Int) / 3 then (env.termHeight : Int) / 2 - 1
    else compLines0
  let e1 : Engine := { e with compRows := env.compRowsNew }
  (e1, [TOp.newline, TOp.printHint, TOp.printCompletions compLines,
        TOp.moveBackwards env.width, TOp.moveUp e1.compRows, TOp.moveUp env.hintRows])

/-- Translation of `CursorHintToLineStart` from `engine.go`. -/
def CursorHintToLineStart (e : Engine) : List TOp :=
  [TOp.moveUp 1, TOp.moveUp (e.lineRows - e.cursorRow)] ++ CursorToLineStart e

/-- Translation of `LineStartToCursorPos` from `engine.go`. -/
def LineStartToCursorPos (width : Nat) (e : Engine) : List TOp :=
  [TOp.moveDown e.cursorRow, TOp.moveBackwards width, TOp.moveForwards e.cursorCol]

/-- Translation of `Refresh` from `engine.go`: hide the cursor, undo the
previous paint by moving to the line start with the retained geometry,
recompute the geometry, re-indent, paint the line, right prompt and
helpers, return to the logical cursor position and show the cursor.  The
result is the new engine state and the emitted terminal-operation trace. -/
def Refresh (env : Env) (e : Engine) : Engine × List TOp :=
  let undo := CursorToLineStart e
  let e1 := computeCoordinates env e
  let indent := [TOp.moveBackwards env.width, TOp.moveForwards e1.startCols]
  let p := displayLine env e1
  let rp := [TOp.printRightPrompt p.1.lineCol]
  let q := displayHelpers env p.1
  let back := CursorHintToLineStart q.1 ++ LineStartToCursorPos env.width q.1
  (q.1, [TOp.hideCursor] ++ undo ++ indent ++ p.2 ++ rp ++ q.2 ++ back ++ [TOp.showCursor])

end Display

/-- The segment list a reversed-segment state denotes, concatenated: used to
state that tokenising loses no rune. -/
def splitJoin (rs : List (List Char)) : List Char := rs.reverse.flatten

/-- Loop invariant of both tokenisers: the segment list is never empty, the
recorded index addresses a segment, and the recorded position is at most
that segment's (current) length. -/
def TokInv (st : TokSt) : Prop :=
  st.revSplit ≠ [] ∧ st.index < st.revSplit.length ∧
    st.pos ≤ (st.revSplit.reverse.getD st.index []).length

theorem appendHead_ne_nil (rs : List (List Char)) (r : Char) : appendHead rs r ≠ [] := by
  cases rs <;> simp [appendHead]

theorem length_le_appendHead (rs : List (List Char)) (r : Char) :
    rs.length ≤ (appendHead rs r).length := by
  cases rs <;> simp [appendHead]

theorem splitJoin_appendHead (rs : List (List Char)) (r : Char) :
    splitJoin (appendHead rs r) = splitJoin rs ++ [r] := by
  cases rs with
  | nil => simp [appendHead, splitJoin]
  | cons s rest =>
    simp [appendHead, splitJoin, List.reverse_cons, List.flatten_append, List.append_assoc]

theorem splitJoin_cons_nil (rs : List (List Char)) :
    splitJoin ([] :: rs) = splitJoin rs := by
  simp [splitJoin, List.reverse_cons, List.flatten_append]

theorem getD_reverse_appendHead (rs : List (List Char)) (r : Char) (i : Nat)
    (h : i < rs.length) :
    (rs.reverse.getD i []).length ≤ ((appendHead rs r).reverse.getD i []).length := by
  cases rs with
  | nil => simp at h
  | cons s rest =>
    simp only [appendHead, List.reverse_cons]
    rcases Nat.lt_or_ge i rest.length with hi | hi
    · rw [List.getD_append _ _ _ _ (by simpa using hi),
        List.getD_append _ _ _ _ (by simpa using hi)]
    · have hie : i = rest.length := by
        have h' : i < rest.length + 1 := by simpa using h
        omega
      subst hie
      rw [List.getD_append_right _ _ _ _ (by simp),
        List.getD_append_right _ _ _ _ (by simp)]
      simp

theorem getD_reverse_cons_nil (rs : List (List Char)) (i : Nat) (h : i < rs.length) :
    (([] :: rs).reverse.getD i []) = rs.reverse.getD i [] := by
  simp only [List.reverse_cons]
  rw [List.getD_append _ _ _ _ (by simpa using h)]

theorem getD_reverse_headD (rs : List (List Char)) (h : rs ≠ []) :
    rs.reverse.getD (rs.length - 1) [] = rs.headD [] := by
  cases rs with
  | nil => simp at h
  | cons s rest =>
    simp only [List.reverse_cons, List.length_cons, Nat.add_sub_cancel, List.headD]
    rw [List.getD_append_right _ _ _ _ (by simp)]
    simp

theorem ite_cons_self (c : Prop) [Decidable c] (rs : List (List Char)) :
    (if c then [] :: rs else rs) = rs ∨ (if c then [] :: rs else rs) = [] :: rs := by
  split
  · exact Or.inr rfl
  · exact Or.inl rfl

theorem appendHead_grow (rs rs1 : List (List Char)) (r : Char)
    (hrs1 : rs1 = rs ∨ rs1 = [] :: rs) :
    appendHead rs1 r ≠ [] ∧ rs.length ≤ (appendHead rs1 r).length ∧
      ∀ i, i < rs.length →
        (rs.reverse.getD i []).length ≤ ((appendHead rs1 r).reverse.getD i []).length := by
  rcases hrs1 with h | h <;> subst h
  · exact ⟨appendHead_ne_nil _ _, length_le_appendHead _ _,
      fun i hi => getD_reverse_appendHead _ _ _ hi⟩
  · refine ⟨appendHead_ne_nil _ _, ?_, ?_⟩
    · calc rs.length ≤ ([] :: rs).length := by simp
        _ ≤ _ := length_le_appendHead _ _
    · intro i hi
      have h1 := getD_reverse_cons_nil rs i hi
      calc (rs.reverse.getD i []).length
          = ((([] :: rs).reverse).getD i []).length := by rw [h1]
        _ ≤ _ := getD_reverse_appendHead ([] :: rs) r i (by simp; omega)

theorem TokInv_grow (st : TokSt) (rs1 : List (List Char)) (r : Char) (p1 : Bool)
    (pr : Option Char) (hrs1 : rs1 = st.revSplit ∨ rs1 = [] :: st.revSplit)
    (h : TokInv st) :
    TokInv { revSplit := appendHead rs1 r, punc := p1, prev := pr,
             index := st.index, pos := st.pos } := by
  obtain ⟨hne, hidx, hpos⟩ := h
  obtain ⟨hne', hlen, hgetD⟩ := appendHead_grow st.revSplit rs1 r hrs1
  exact ⟨hne', Nat.lt_of_lt_of_le hidx hlen, Nat.le_trans hpos (hgetD _ hidx)⟩

theorem tokFinish_inv (linePos i : Nat) (st1 : TokSt) (h : TokInv st1) :
    TokInv (tokFinish linePos i st1) := by
  obtain ⟨hne, hidx, hpos⟩ := h
  unfold tokFinish
  split
  · refine ⟨hne, Nat.sub_lt (List.length_pos.mpr hne) Nat.one_pos, ?_⟩
    rw [getD_reverse_headD _ hne]
    exact Nat.sub_le _ _
  · exact ⟨hne, hidx, hpos⟩

theorem tokFinish_revSplit (linePos i : Nat) (st1 : TokSt) :
    (tokFinish linePos i st1).revSplit = st1.revSplit := by
  unfold tokFinish
  split <;> rfl

theorem tokeniseLineStep_inv (linePos : Nat) (st : TokSt) (ir : Nat × Char)
    (h : TokInv st) : TokInv (tokeniseLineStep linePos st ir) := by
  unfold tokeniseLineStep
  by_cases h1 : isPunctuation ir.2
  · simp only [h1, if_true]
    exact tokFinish_inv _ _ _
      (TokInv_grow st _ ir.2 _ _ (ite_cons_self _ st.revSplit) h)
  · by_cases h2 : ir.2 = ' ' ∨ ir.2 = '\t' ∨ ir.2 = '\n'
    · simp only [h1, h2, if_false, if_true]
      exact tokFinish_inv _ _ _ (TokInv_grow st _ ir.2 _ _ (Or.inl rfl) h)
    · simp only [h1, h2, if_false]
      exact tokFinish_inv _ _ _
        (TokInv_grow st _ ir.2 _ _ (ite_cons_self _ st.revSplit) h)

theorem splitJoin_appendHead_ite (c : Prop) [Decidable c] (rs : List (List Char)) (r : Char) :
    splitJoin (appendHead (if c then [] :: rs else rs) r) = splitJoin rs ++ [r] := by
  split
  · rw [splitJoin_appendHead, splitJoin_cons_nil]
  · rw [splitJoin_appendHead]

theorem tokeniseLineStep_join (linePos : Nat) (st : TokSt) (ir : Nat × Char) :
    splitJoin (tokeniseLineStep linePos st ir).revSplit = splitJoin st.revSplit ++ [ir.2] := by
  unfold tokeniseLineStep
  rw [tokFinish_revSplit]
  by_cases h1 : isPunctuation ir.2
  · simp only [h1, if_true]
    exact splitJoin_appendHead_ite _ _ _
  · by_cases h2 : ir.2 = ' ' ∨ ir.2 = '\t' ∨ ir.2 = '\n'
    · simp only [h1, h2, if_false, if_true]
      exact splitJoin_appendHead _ _
    · simp only [h1, h2, if_false]
      exact splitJoin_appendHead_ite _ _ _

theorem tokeniseSplitSpacesStep_inv (linePos : Nat) (st : TokSt) (ir : Nat × Char)
    (h : TokInv st) : TokInv (tokeniseSplitSpacesStep linePos st ir) := by
  unfold tokeniseSplitSpacesStep
  by_cases h1 : ir.2 = ' ' ∨ ir.2 = '\t' ∨ ir.2 = '\n'
  · simp only [h1, if_true]
    exact tokFinish_inv _ _ _ (TokInv_grow st _ ir.2 _ _ (Or.inl rfl) h)
  · simp only [h1, if_false]
    exact tokFinish_inv _ _ _
      (TokInv_grow st _ ir.2 _ _ (ite_cons_self _ st.revSplit) h)

theorem tokeniseSplitSpacesStep_join (linePos : Nat) (st : TokSt) (ir : Nat × Char) :
    splitJoin (tokeniseSplitSpacesStep linePos st ir).revSplit
      = splitJoin st.revSplit ++ [ir.2] := by
  unfold tokeniseSplitSpacesStep
  rw [tokFinish_revSplit]
  by_cases h1 : ir.2 = ' ' ∨ ir.2 = '\t' ∨ ir.2 = '\n'
  · simp only [h1, if_true]
    exact splitJoin_appendHead _ _
  · simp only [h1, if_false]
    exact splitJoin_appendHead_ite _ _ _

theorem foldl_inv (f : TokSt → Nat × Char → TokSt)
    (hf : ∀ st ir, TokInv st → TokInv (f st ir)) :
    ∀ (l : List (Nat × Char)) (st : TokSt), TokInv st → TokInv (l.foldl f st)
  | [], _, h => h
  | a :: t, st, h => foldl_inv f hf t (f st a) (hf st a h)

theorem foldl_join (f : TokSt → Nat × Char → TokSt)
    (hf : ∀ st ir, splitJoin (f st ir).revSplit = splitJoin st.revSplit ++ [ir.2]) :
    ∀ (l : List (Nat × Char)) (st : TokSt),
      splitJoin ((l.foldl f st).revSplit) = splitJoin st.revSplit ++ l.map Prod.snd
  | [], _ => by simp
  | a :: t, st => by
    simp only [List.foldl_cons, List.map_cons]
    rw [foldl_join f hf t (f st a), hf st a, List.append_assoc]
    rfl

theorem tokInit_inv : TokInv tokInit :=
  ⟨by simp [tokInit], by simp [tokInit], by simp [tokInit]⟩

theorem tokenise_props (tok : Nat → TokSt → Nat × Char → TokSt)
    (hinv : ∀ linePos st ir, TokInv st → TokInv (tok linePos st ir))
    (hjoin : ∀ linePos st ir,
      splitJoin (tok linePos st ir).revSplit = splitJoin st.revSplit ++ [ir.2])
    (line : List Char) (linePos : Nat) :
    splitJoin (line.enum.foldl (tok linePos) tokInit).revSplit = line ∧
      TokInv (line.enum.foldl (tok linePos) tokInit) := by
  constructor
  · have h := foldl_join (tok linePos) (hjoin linePos) line.enum tokInit
    rw [List.enum_map_snd] at h
    simpa [splitJoin, tokInit] using h
  · exact foldl_inv (tok linePos) (hinv linePos) line.enum tokInit tokInit_inv

theorem tokeniseResult_props (line : List Char) (linePos : Nat) (st : TokSt)
    (hjoin : splitJoin st.revSplit = line) (hinv : TokInv st) :
    (tokeniseResult line linePos st).1.flatten = line ∧
      (tokeniseResult line linePos st).2.1 < (tokeniseResult line linePos st).1.length ∧
      (tokeniseResult line linePos st).2.2 ≤
        ((tokeniseResult line linePos st).1.getD (tokeniseResult line linePos st).2.1 []).length := by
  obtain ⟨h1, h2, h3⟩ := hinv
  unfold tokeniseResult
  split
  · refine ⟨hjoin, ?_, ?_⟩
    · simpa using Nat.sub_lt (List.length_pos.mpr h1) Nat.one_pos
    · simp only [List.length_reverse]
      rw [getD_reverse_headD _ h1]
  · exact ⟨hjoin, by simpa using h2, h3⟩

/-- C10: for every non-empty line and every cursor position `0 ≤ linePos ≤
len(line)`, `tokeniseLine` and `tokeniseSplitSpaces` return a segment list
whose concatenation equals the input line, a segment index that addresses
an existing segment, and a within-segment position of at most that
segment's length; for the empty line both return `([], 0, 0)`. -/
theorem c10_tokenise_invariants :
    (∀ (line : List Char) (linePos : Nat), line ≠ [] → linePos ≤ line.length →
      (((tokeniseLine line linePos).1.flatten = line ∧
        (tokeniseLine line linePos).2.1 < (tokeniseLine line linePos).1.length ∧
        (tokeniseLine line linePos).2.2 ≤
          ((tokeniseLine line linePos).1.getD (tokeniseLine line linePos).2.1 []).length) ∧
       ((tokeniseSplitSpaces line linePos).1.flatten = line ∧
        (tokeniseSplitSpaces line linePos).2.1 < (tokeniseSplitSpaces line linePos).1.length ∧
        (tokeniseSplitSpaces line linePos).2.2 ≤
          ((tokeniseSplitSpaces line linePos).1.getD
            (tokeniseSplitSpaces line linePos).2.1 []).length))) ∧
    (∀ linePos : Nat, tokeniseLine [] linePos = ([], 0, 0) ∧
      tokeniseSplitSpaces [] linePos = ([], 0, 0)) := by
  constructor
  · intro line linePos hne _hpos
    have hL := tokenise_props tokeniseLineStep tokeniseLineStep_inv
      tokeniseLineStep_join line linePos
    have hS := tokenise_props tokeniseSplitSpacesStep tokeniseSplitSpacesStep_inv
      tokeniseSplitSpacesStep_join line linePos
    have heqL : tokeniseLine line linePos
        = tokeniseResult line linePos (line.enum.foldl (tokeniseLineStep linePos) tokInit) := by
      unfold tokeniseLine
      rw [if_neg hne]
    have heqS : tokeniseSplitSpaces line linePos
        = tokeniseResult line linePos
            (line.enum.foldl (tokeniseSplitSpacesStep linePos) tokInit) := by
      unfold tokeniseSplitSpaces
      rw [if_neg hne]
    rw [heqL, heqS]
    exact ⟨tokeniseResult_props line linePos _ hL.1 hL.2,
      tokeniseResult_props line linePos _ hS.1 hS.2⟩
  · intro linePos
    exact ⟨by unfold tokeniseLine; rw [if_pos rfl], by unfold tokeniseSplitSpaces; rw [if_pos rfl]⟩

namespace Completion

theorem currentGroup_set_selected (e : Engine) (c : Candidate) :
    currentGroup { e with selected := c } = currentGroup e := rfl

theorem prepareSuffix_eq (e : Engine) (g : Group)
    (hg : currentGroup e = some g) (hne : e.selected.Value ≠ [])
    (hlen : e.pfx.length ≤ e.selected.Value.length) :
    prepareSuffix e =
      some ((if (e.selected.Value.drop e.pfx.length).length ≤ 1 then e
        else { e with sm := recordedSM e g }), e.selected.Value) := by
  have h0 : 0 < e.selected.Value.length := List.length_pos.mpr hne
  unfold prepareSuffix
  rw [hg]
  simp only []
  rw [if_pos h0, if_neg (not_lt.mpr hlen)]
  by_cases hc : (e.selected.Value.drop e.pfx.length).length ≤ 1
  · rw [if_pos hc, if_pos hc]
  · rw [if_neg hc, if_neg hc]
    split
    · rfl
    · split <;> rfl

theorem prepareSuffix_preserves (e e' : Engine) (c : List Char)
    (h : prepareSuffix e = some (e', c)) :
    e'.line = e.line ∧ e'.cursor = e.cursor ∧ e'.pfx = e.pfx ∧ e'.suffix = e.suffix ∧
      e'.compLine = e.compLine ∧ e'.compCursor = e.compCursor ∧ e'.selected = e.selected ∧
      e'.groups = e.groups := by
  unfold prepareSuffix at h
  cases hg : currentGroup e with
  | none =>
    rw [hg] at h
    simp only [Option.some.injEq, Prod.mk.injEq] at h
    obtain ⟨he, _⟩ := h
    subst he
    exact ⟨rfl, rfl, rfl, rfl, rfl, rfl, rfl, rfl⟩
  | some cur =>
    rw [hg] at h
    simp only [] at h
    split_ifs at h <;>
      simp only [Option.some.injEq, Prod.mk.injEq] at h <;>
      obtain ⟨he, _⟩ := h <;> subst he <;>
      exact ⟨rfl, rfl, rfl, rfl, rfl, rfl, rfl, rfl⟩

theorem acceptCandidate_eq (e : Engine) (g : Group)
    (hg : currentGroup e = some g) (hne : (Group.selected g).Value ≠ [])
    (hlen : e.pfx.length ≤ (Group.selected g).Value.length) :
    acceptCandidate e = some (acceptResult e g) := by
  have hps := prepareSuffix_eq { e with selected := Group.selected g } g hg hne hlen
  dsimp only at hps
  by_cases hc : ((Group.selected g).Value.drop e.pfx.length).length ≤ 1
  · rw [if_pos hc] at hps
    simp only [acceptCandidate, hg, hps, not_lt.mpr hlen, acceptResult, smAfter,
      if_pos hc, if_neg (not_lt.mpr hlen)]
    rfl
  · rw [if_neg hc] at hps
    simp only [acceptCandidate, hg, hps, not_lt.mpr hlen, acceptResult, smAfter,
      if_neg hc, if_neg (not_lt.mpr hlen)]
    rfl

theorem insertCandidate_eq (e : Engine) (g : Group)
    (hg : currentGroup e = some g) (hne : (Group.selected g).Value ≠ [])
    (hlen : e.pfx.length ≤ (Group.selected g).Value.length) :
    insertCandidate e = some (insertResult e g) := by
  have hps := prepareSuffix_eq { e with selected := Group.selected g } g hg hne hlen
  dsimp only at hps
  have hguard : ¬ ((Group.selected g).Value.length < e.pfx.length) := not_lt.mpr hlen
  by_cases hc : ((Group.selected g).Value.drop e.pfx.length).length ≤ 1
  · rw [if_pos hc] at hps
    simp only [insertCandidate, hg, hps, hguard, not_lt.mpr hlen, insertResult, smAfter,
      if_pos hc, if_neg hguard, if_neg (not_lt.mpr hlen)]
    rfl
  · rw [if_neg hc] at hps
    simp only [insertCandidate, hg, hps, hguard, not_lt.mpr hlen, insertResult, smAfter,
      if_neg hc, if_neg hguard, if_neg (not_lt.mpr hlen)]
    rfl

theorem insertCandidate_preserves (e e' : Engine) (h : insertCandidate e = some e') :
    e'.line = e.line ∧ e'.cursor = e.cursor := by
  unfold insertCandidate at h
  cases hg : currentGroup e with
  | none =>
    rw [hg] at h
    simp only [Option.some.injEq] at h
    subst h
    exact ⟨rfl, rfl⟩
  | some grp =>
    rw [hg] at h
    simp only [] at h
    split_ifs at h with h1
    · simp only [Option.some.injEq] at h
      subst h
      exact ⟨rfl, rfl⟩
    · cases hps : prepareSuffix { e with selected := grp.selected } with
      | none => rw [hps] at h; cases h
      | some p =>
        obtain ⟨e1, c⟩ := p
        rw [hps] at h
        simp only [] at h
        split_ifs at h with h2
        simp only [Option.some.injEq] at h
        subst h
        have hpres := prepareSuffix_preserves _ _ _ hps
        exact ⟨hpres.1, hpres.2.1⟩

theorem acceptCandidate_preserves (e e' : Engine) (h : acceptCandidate e = some e') :
    e'.compLine = e.compLine ∧ e'.compCursor = e.compCursor ∧ e'.groups = e.groups := by
  unfold acceptCandidate at h
  cases hg : currentGroup e with
  | none =>
    rw [hg] at h
    simp only [Option.some.injEq] at h
    subst h
    exact ⟨rfl, rfl, rfl⟩
  | some grp =>
    rw [hg] at h
    simp only [] at h
    cases hps : prepareSuffix { e with selected := grp.selected } with
    | none => rw [hps] at h; cases h
    | some p =>
      obtain ⟨e1, c⟩ := p
      rw [hps] at h
      simp only [] at h
      split_ifs at h with h2
      simp only [Option.some.injEq] at h
      subst h
      have hpres := prepareSuffix_preserves _ _ _ hps
      exact ⟨hpres.2.2.2.2.1, hpres.2.2.2.2.2.1, hpres.2.2.2.2.2.2.2⟩

/-- C1: for every state in which a candidate is previewed by
`insertCandidate`, accepting it via `acceptCandidate` leaves the real
line's content exactly equal to the shadow line's content at the moment of
accept. -/
theorem c1_accept_equals_shadow (e e1 e2 : Engine) (g : Group)
    (hg : currentGroup e = some g)
    (hne : (Group.selected g).Value ≠ [])
    (hlen : e.pfx.length ≤ (Group.selected g).Value.length)
    (hcur : e.cursor ≤ e.line.length)
    (h1 : insertCandidate e = some e1)
    (h2 : acceptCandidate e1 = some e2) :
    e2.line = e1.compLine := by
  rw [insertCandidate_eq e g hg hne hlen] at h1
  injection h1 with h1
  subst h1
  rw [acceptCandidate_eq (insertResult e g) g hg hne hlen] at h2
  injection h2 with h2
  subst h2
  simp only [acceptResult, insertResult]
  rw [min_eq_left hcur]

/-- C3: entering a preview via `insertCandidate` and cancelling it via
`cancelCompletedLine` makes the shadow line identical to the real line,
the shadow cursor equal to the real cursor, and clears the selected
candidate. -/
theorem c3_cancel_roundtrip (e e1 : Engine)
    (hcur : e.cursor ≤ e.line.length)
    (h1 : insertCandidate e = some e1) :
    (cancelCompletedLine e1).compLine = (cancelCompletedLine e1).line ∧
    (cancelCompletedLine e1).compCursor = (cancelCompletedLine e1).cursor ∧
    (cancelCompletedLine e1).selected = { Value := [] } := by
  obtain ⟨hl, hc⟩ := insertCandidate_preserves e e1 h1
  refine ⟨rfl, ?_, rfl⟩
  simp only [cancelCompletedLine]
  rw [hl, hc]
  exact min_eq_left hcur

/-- C4: `acceptCandidate` cuts the suffix region `[cursor, cursor +
len(suffix))` from the real line, inserts the candidate with the prefix
stripped at the cursor (advancing it by the inserted length), re-inserts
the suffix at the new cursor, and resets the inserted/prefix/suffix
bookkeeping to empty. -/
theorem c4_accept_steps (e : Engine) (g : Group)
    (hg : currentGroup e = some g)
    (hne : (Group.selected g).Value ≠ [])
    (hlen : e.pfx.length ≤ (Group.selected g).Value.length) :
    (acceptCandidate e).map Engine.line =
      some (lineInsert
        (lineInsert (lineCut e.line e.cursor (e.cursor + e.suffix.length)) e.cursor
          ((Group.selected g).Value.drop e.pfx.length))
        (e.cursor + ((Group.selected g).Value.drop e.pfx.length).length) e.suffix) ∧
    (acceptCandidate e).map Engine.cursor =
      some (e.cursor + ((Group.selected g).Value.drop e.pfx.length).length) ∧
    (acceptCandidate e).map Engine.inserted = some [] ∧
    (acceptCandidate e).map Engine.pfx = some [] ∧
    (acceptCandidate e).map Engine.suffix = some [] := by
  rw [acceptCandidate_eq e g hg hne hlen]
  simp [acceptResult]

theorem TrimSuffix_keeps (e : Engine)
    (h : e.sm.pos ≠ e.cursor - 1 ∨
      (e.line.length = 0 ∨ e.cursor = 0 ∨ e.selected.Value.length > 0)) :
    (TrimSuffix e).map Engine.line = some e.line ∧
      (TrimSuffix e).map Engine.cursor = some e.cursor := by
  unfold TrimSuffix
  by_cases hz : e.line.length = 0 ∨ e.cursor = 0 ∨ e.selected.Value.length > 0
  · rw [if_pos hz]
    exact ⟨rfl, rfl⟩
  · have hp : e.sm.pos ≠ e.cursor - 1 := h.resolve_right hz
    rw [if_neg hz, if_pos hp]
    exact ⟨rfl, rfl⟩

theorem notMatcher_of_not_mem (key : Char) (s : List Char) (h : key ∉ s) :
    notMatcher key s = true := by
  simp only [notMatcher, List.all_eq_true, decide_eq_true_eq]
  intro r hr heq
  exact h (heq ▸ hr)

theorem Matches_of_mem (sm : SuffixMatcher) (key : Char) (h : key ∈ sm.string) :
    SuffixMatcher.Matches sm key = true := by
  simp only [SuffixMatcher.Matches, List.any_eq_true]
  exact ⟨key, h, by simp⟩

/-- C2 (amended): after an acceptance recorded the suffix matcher at
position `cursor - 1`, a first `TrimSuffix` with a typed key that is
whitespace or a member of the recorded separator set — and that does not
fall under the kept-path-separator case (rune `'/'` before the cursor with
a non-space key outside the separator set) — deletes exactly the rune
immediately before the cursor; an immediately following second call with
the same key deletes nothing. -/
theorem c2_trim_idempotent (e : Engine)
    (hc1 : 1 ≤ e.cursor) (hc2 : e.cursor ≤ e.line.length)
    (hsel : e.selected.Value = [])
    (hpos : e.sm.pos = e.cursor - 1)
    (hkey : isSpace e.keyCaller = true ∨ e.keyCaller ∈ e.sm.string)
    (hslash : ¬ (e.line.getD (e.cursor - 1) ' ' = '/' ∧ e.keyCaller ≠ ' ' ∧
      notMatcher e.keyCaller e.sm.string = true)) :
    (TrimSuffix e).map Engine.line = some (lineCutRune e.line (e.cursor - 1)) ∧
    (TrimSuffix e).map Engine.cursor = some (e.cursor - 1) ∧
    ((TrimSuffix e).bind TrimSuffix).map Engine.line =
      some (lineCutRune e.line (e.cursor - 1)) ∧
    ((TrimSuffix e).bind TrimSuffix).map Engine.cursor = some (e.cursor - 1) := by
  have hguard : ¬ (e.line.length = 0 ∨ e.cursor = 0 ∨ e.selected.Value.length > 0) := by
    simp only [hsel]
    simp only [List.length_nil, gt_iff_lt, lt_irrefl, or_false]
    omega
  have hidx : e.cursor - 1 < e.line.length := by omega
  have hgd : e.line.getD (e.cursor - 1) ' ' = e.line[e.cursor - 1] :=
    List.getD_eq_getElem e.line ' ' hidx
  have hmatch : (SuffixMatcher.Matches e.sm e.keyCaller = true) ∨ isSpace e.keyCaller = true := by
    rcases hkey with h | h
    · exact Or.inr h
    · exact Or.inl (Matches_of_mem e.sm e.keyCaller h)
  have h1 : TrimSuffix e = some
      { e with
        cursor := e.cursor - 1,
        line := lineCutRune e.line (e.cursor - 1) } := by
    unfold TrimSuffix
    rw [if_neg hguard, if_neg (not_not_intro hpos), List.getElem?_eq_getElem hidx]
    simp only []
    rw [if_neg (by rw [← hgd]; exact hslash), if_pos hmatch]
  rw [h1]
  refine ⟨rfl, rfl, ?_, ?_⟩ <;>
  · rw [Option.some_bind]
    have h2 := TrimSuffix_keeps
      { e with
        cursor := e.cursor - 1,
        line := lineCutRune e.line (e.cursor - 1) } ?_
    · first
      | exact h2.1
      | exact h2.2
    · by_cases hcc : e.cursor - 1 = 0
      · exact Or.inr (Or.inr (Or.inl hcc))
      · left
        simp only [hpos]
        omega

/-- C9 (amended): when `TrimSuffix` runs past its initial guards (non-empty
line, non-zero cursor, no selected candidate) while the recorded matcher
position differs from `cursor - 1`, the matcher is cleared to the empty
matcher and the line and cursor are left unchanged. -/
theorem c9_orphan_cleared (e : Engine)
    (hl : e.line ≠ []) (hc : 1 ≤ e.cursor) (hsel : e.selected.Value = [])
    (hpos : e.sm.pos ≠ e.cursor - 1) :
    TrimSuffix e = some { e with sm := { string := [], pos := 0 } } := by
  have hguard : ¬ (e.line.length = 0 ∨ e.cursor = 0 ∨ e.selected.Value.length > 0) := by
    simp only [hsel, List.length_nil, gt_iff_lt, lt_irrefl, or_false]
    have := List.length_pos.mpr hl
    omega
  unfold TrimSuffix
  rw [if_neg hguard, if_pos hpos]

/-- C6 (amended): for a completion ending in the path separator `'/'`, when
the next typed key is neither a member of the recorded separator set nor
the space character, the separator is kept.  In the post-acceptance state
(selection cleared), `TrimSuffix` leaves the line and cursor unchanged —
when the recorded matcher is still valid at `cursor - 1` this goes through
the path special case; and at acceptance time `prepareSuffix` returns the
candidate value unmodified (it never trims), leaving the line and cursor
untouched. -/
theorem c6_slash_kept :
    (∀ e : Engine, 1 ≤ e.cursor → e.cursor ≤ e.line.length →
      e.line.getD (e.cursor - 1) ' ' = '/' →
      e.selected.Value = [] →
      e.keyCaller ∉ e.sm.string → e.keyCaller ≠ ' ' →
      (TrimSuffix e).map Engine.line = some e.line ∧
      (TrimSuffix e).map Engine.cursor = some e.cursor) ∧
    (∀ (e : Engine) (g : Group), currentGroup e = some g →
      e.selected.Value ≠ [] → e.pfx.length ≤ e.selected.Value.length →
      (prepareSuffix e).map Prod.snd = some e.selected.Value ∧
      (prepareSuffix e).map (fun p => p.1.line) = some e.line ∧
      (prepareSuffix e).map (fun p => p.1.cursor) = some e.cursor) := by
  constructor
  · intro e hc1 hc2 hsuf hsel hk1 hk2
    have hguard : ¬ (e.line.length = 0 ∨ e.cursor = 0 ∨ e.selected.Value.length > 0) := by
      simp only [hsel, List.length_nil, gt_iff_lt, lt_irrefl, or_false]
      omega
    have hidx : e.cursor - 1 < e.line.length := by omega
    have hgd : e.line.getD (e.cursor - 1) ' ' = e.line[e.cursor - 1] :=
      List.getD_eq_getElem e.line ' ' hidx
    by_cases hp : e.sm.pos ≠ e.cursor - 1
    · unfold TrimSuffix
      rw [if_neg hguard, if_pos hp]
      exact ⟨rfl, rfl⟩
    · unfold TrimSuffix
      rw [if_neg hguard, if_neg hp, List.getElem?_eq_getElem hidx]
      simp only []
      rw [if_pos ⟨hgd ▸ hsuf, hk2, notMatcher_of_not_mem _ _ hk1⟩]
      exact ⟨rfl, rfl⟩
  · intro e g hg hne hlen
    refine ⟨?_, ?_, ?_⟩ <;>
      rw [prepareSuffix_eq e g hg hne hlen] <;>
      simp only [Option.map_some'] <;>
      first
      | rfl
      | (congr 1; split <;> rfl)

/-- C7 (amended): for every nonempty selected candidate `c` whose prefix
`p` is no longer than it, `prepareSuffix` leaves the suffix handling
untouched when the portion of `c` with `p` stripped has length at most 1,
and otherwise records the group's separator set as the suffix matcher with
position `cursor + len(c) - len(p) - 1`, returning the candidate value
unmodified in both cases. -/
theorem c7_prepare_records (e : Engine) (g : Group)
    (hg : currentGroup e = some g) (hne : e.selected.Value ≠ [])
    (hlen : e.pfx.length ≤ e.selected.Value.length) :
    prepareSuffix e =
      some ((if (e.selected.Value.drop e.pfx.length).length ≤ 1 then e
        else { e with sm := recordedSM e g }), e.selected.Value) :=
  prepareSuffix_eq e g hg hne hlen

/-- C5: when `refreshLine` runs with a non-empty candidate set, the unique
candidate (when there is exactly one across all groups) is accepted into
the real line with the menu cleared and the shadow line untouched; in
every other case only the virtual insertion runs and the real line and
cursor are untouched. -/
theorem c5_refresh_unique (e : Engine) (g : Group)
    (hg : currentGroup e = some g)
    (hno : noCompletions e = false)
    (hne : (Group.selected g).Value ≠ [])
    (hlen : e.pfx.length ≤ (Group.selected g).Value.length) :
    if hasUniqueCandidate e then
      refreshLine e = (acceptCandidate e).map (fun e1 => resetForce (clearMenu e1)) ∧
      (refreshLine e).map Engine.compLine = some e.compLine ∧
      (refreshLine e).map Engine.groups = some [] ∧
      (refreshLine e).map Engine.line =
        (acceptCandidate e).map Engine.line
    else
      refreshLine e = insertCandidate e ∧
      (insertCandidate e).map Engine.line = some e.line ∧
      (insertCandidate e).map Engine.cursor = some e.cursor := by
  have hnoP : ¬ (noCompletions e = true) := by simp [hno]
  have hgs : ¬ ((currentGroup e).isNone = true) := by rw [hg]; simp
  by_cases hu : hasUniqueCandidate e
  · rw [if_pos hu]
    have ha := acceptCandidate_eq e g hg hne hlen
    have hr : refreshLine e = some (resetForce (clearMenu (acceptResult e g))) := by
      unfold refreshLine
      rw [if_neg hnoP, if_neg hgs, if_pos hu, ha]
    refine ⟨?_, ?_, ?_, ?_⟩
    · rw [hr, ha]
      rfl
    · rw [hr]
      simp only [Option.map_some']
      simp [resetForce, clearMenu, acceptResult]
    · rw [hr]
      simp only [Option.map_some']
      simp [resetForce, clearMenu]
    · rw [hr, ha]
      simp only [Option.map_some']
      simp [resetForce, clearMenu]
  · rw [if_neg hu]
    have hi := insertCandidate_eq e g hg hne hlen
    refine ⟨?_, ?_, ?_⟩
    · unfold refreshLine
      rw [if_neg hnoP, if_neg hgs, if_neg hu]
    · rw [hi]
      simp only [Option.map_some']
      simp [insertResult]
    · rw [hi]
      simp only [Option.map_some']
      simp [insertResult]

end Completion

/-- C8: every `Refresh` emits the hide-cursor and the move to the start of
the input line computed from the geometry fields retained from the
previous repaint, before anything else; the returned state's geometry is
the one `computeCoordinates` computes from the new inputs. -/
theorem c8_refresh_order (env : Display.Env) (e : Display.Engine) :
    (Display.Refresh env e).2.take 4 =
      Display.TOp.hideCursor :: Display.CursorToLineStart e ∧
    (Display.Refresh env e).1.startCols = (Display.computeCoordinates env e).startCols ∧
    (Display.Refresh env e).1.startRows = (Display.computeCoordinates env e).startRows ∧
    (Display.Refresh env e).1.cursorCol = (Display.computeCoordinates env e).cursorCol ∧
    (Display.Refresh env e).1.cursorRow = (Display.computeCoordinates env e).cursorRow ∧
    (Display.Refresh env e).1.lineCol = (Display.computeCoordinates env e).lineCol ∧
    (Display.Refresh env e).1.lineRows = (Display.computeCoordinates env e).lineRows :=
  ⟨rfl, rfl, rfl, rfl, rfl, rfl, rfl⟩

namespace Completion

theorem c1_witness :
    currentGroup wc1e = some wc1g ∧
    (Group.selected wc1g).Value ≠ [] ∧
    wc1e.pfx.length ≤ (Group.selected wc1g).Value.length ∧
    wc1e.cursor ≤ wc1e.line.length ∧
    insertCandidate wc1e = some wc1i ∧
    acceptCandidate wc1i = some wc1a ∧
    wc1a.line = wc1i.compLine :=
  ⟨by decide, by decide, by decide, by decide, by decide, by decide,
    c1_accept_equals_shadow wc1e wc1i wc1a wc1g (by decide) (by decide) (by decide)
      (by decide) (by decide) (by decide)⟩

theorem c2_counterexample :
    isSpace cc2e.keyCaller = true ∧
    cc2e.sm.pos = cc2e.cursor - 1 ∧
    cc2e.selected.Value = [] ∧
    1 ≤ cc2e.cursor ∧ cc2e.cursor ≤ cc2e.line.length ∧
    TrimSuffix cc2e = some cc2e := by decide

theorem c2_witness :
    (1 ≤ wc2e.cursor ∧ wc2e.cursor ≤ wc2e.line.length ∧ wc2e.selected.Value = [] ∧
      wc2e.sm.pos = wc2e.cursor - 1 ∧
      (isSpace wc2e.keyCaller = true ∨ wc2e.keyCaller ∈ wc2e.sm.string) ∧
      ¬ (wc2e.line.getD (wc2e.cursor - 1) ' ' = '/' ∧ wc2e.keyCaller ≠ ' ' ∧
        notMatcher wc2e.keyCaller wc2e.sm.string = true)) ∧
    ((TrimSuffix wc2e).map Engine.line = some (lineCutRune wc2e.line (wc2e.cursor - 1)) ∧
     (TrimSuffix wc2e).map Engine.cursor = some (wc2e.cursor - 1) ∧
     ((TrimSuffix wc2e).bind TrimSuffix).map Engine.line =
       some (lineCutRune wc2e.line (wc2e.cursor - 1)) ∧
     ((TrimSuffix wc2e).bind TrimSuffix).map Engine.cursor = some (wc2e.cursor - 1)) :=
  ⟨⟨by decide, by decide, by decide, by decide, by decide, by decide⟩,
    c2_trim_idempotent wc2e (by decide) (by decide) (by decide) (by decide) (by decide)
      (by decide)⟩

theorem c3_witness :
    (wc3e.cursor ≤ wc3e.line.length ∧ insertCandidate wc3e = some wc3i) ∧
    ((cancelCompletedLine wc3i).compLine = (cancelCompletedLine wc3i).line ∧
     (cancelCompletedLine wc3i).compCursor = (cancelCompletedLine wc3i).cursor ∧
     (cancelCompletedLine wc3i).selected = { Value := [] }) :=
  ⟨⟨by decide, by decide⟩, c3_cancel_roundtrip wc3e wc3i (by decide) (by decide)⟩

theorem c4_witness :
    (currentGroup wc4e = some wc4g ∧ (Group.selected wc4g).Value ≠ [] ∧
      wc4e.pfx.length ≤ (Group.selected wc4g).Value.length) ∧
    ((acceptCandidate wc4e).map Engine.line =
      some (lineInsert
        (lineInsert (lineCut wc4e.line wc4e.cursor (wc4e.cursor + wc4e.suffix.length))
          wc4e.cursor ((Group.selected wc4g).Value.drop wc4e.pfx.length))
        (wc4e.cursor + ((Group.selected wc4g).Value.drop wc4e.pfx.length).length)
        wc4e.suffix) ∧
     (acceptCandidate wc4e).map Engine.cursor =
       some (wc4e.cursor + ((Group.selected wc4g).Value.drop wc4e.pfx.length).length) ∧
     (acceptCandidate wc4e).map Engine.inserted = some [] ∧
     (acceptCandidate wc4e).map Engine.pfx = some [] ∧
     (acceptCandidate wc4e).map Engine.suffix = some []) :=
  ⟨⟨by decide, by decide, by decide⟩,
    c4_accept_steps wc4e wc4g (by decide) (by decide) (by decide)⟩

theorem c5_witness :
    (currentGroup wc5e = some wc5g ∧ noCompletions wc5e = false ∧
      (Group.selected wc5g).Value ≠ [] ∧
      wc5e.pfx.length ≤ (Group.selected wc5g).Value.length) ∧
    (if hasUniqueCandidate wc5e then
      refreshLine wc5e = (acceptCandidate wc5e).map (fun e1 => resetForce (clearMenu e1)) ∧
      (refreshLine wc5e).map Engine.compLine = some wc5e.compLine ∧
      (refreshLine wc5e).map Engine.groups = some [] ∧
      (refreshLine wc5e).map Engine.line = (acceptCandidate wc5e).map Engine.line
    else
      refreshLine wc5e = insertCandidate wc5e ∧
      (insertCandidate wc5e).map Engine.line = some wc5e.line ∧
      (insertCandidate wc5e).map Engine.cursor = some wc5e.cursor) :=
  ⟨⟨by decide, by decide, by decide, by decide⟩,
    c5_refresh_unique wc5e wc5g (by decide) (by decide) (by decide) (by decide)⟩

theorem c6_counterexample :
    cc6e.keyCaller ∉ cc6e.sm.string ∧
    cc6e.line.getD (cc6e.cursor - 1) ' ' = '/' ∧
    (TrimSuffix cc6e).map Engine.line = some ['a'] ∧
    cc6e.line ≠ ['a'] := by decide

theorem c6_witness :
    (1 ≤ wc6t.cursor ∧ wc6t.cursor ≤ wc6t.line.length ∧
      wc6t.line.getD (wc6t.cursor - 1) ' ' = '/' ∧
      wc6t.selected.Value = [] ∧ wc6t.sm.pos = wc6t.cursor - 1 ∧
      wc6t.keyCaller ∉ wc6t.sm.string ∧ wc6t.keyCaller ≠ ' ') ∧
    ((TrimSuffix wc6t).map Engine.line = some wc6t.line ∧
     (TrimSuffix wc6t).map Engine.cursor = some wc6t.cursor) ∧
    (currentGroup wc6e = some wc6g ∧ wc6e.selected.Value ≠ [] ∧
      wc6e.pfx.length ≤ wc6e.selected.Value.length) ∧
    ((prepareSuffix wc6e).map Prod.snd = some wc6e.selected.Value ∧
     (prepareSuffix wc6e).map (fun p => p.1.line) = some wc6e.line ∧
     (prepareSuffix wc6e).map (fun p => p.1.cursor) = some wc6e.cursor) :=
  ⟨⟨by decide, by decide, by decide, by decide, by decide, by decide, by decide⟩,
    c6_slash_kept.1 wc6t (by decide) (by decide) (by decide) (by decide) (by decide)
      (by decide),
    ⟨by decide, by decide, by decide⟩,
    c6_slash_kept.2 wc6e wc6g (by decide) (by decide) (by decide)⟩

theorem c7_counterexample :
    (currentGroup cc7e).isSome = true ∧
    (cc7e.selected.Value.drop cc7e.pfx.length).length ≤ 1 ∧
    prepareSuffix cc7e = none := by decide

theorem c7_witness :
    (currentGroup wc7e = some wc7g ∧ wc7e.selected.Value ≠ [] ∧
      wc7e.pfx.length ≤ wc7e.selected.Value.length) ∧
    prepareSuffix wc7e =
      some ((if (wc7e.selected.Value.drop wc7e.pfx.length).length ≤ 1 then wc7e
        else { wc7e with sm := recordedSM wc7e wc7g }), wc7e.selected.Value) :=
  ⟨⟨by decide, by decide, by decide⟩,
    c7_prepare_records wc7e wc7g (by decide) (by decide) (by decide)⟩

theorem c9_counterexample :
    cc9e.sm.pos ≠ cc9e.cursor - 1 ∧
    TrimSuffix cc9e = some cc9e ∧
    cc9e.sm ≠ { string := [], pos := 0 } := by decide

theorem c9_witness :
    (wc9e.line ≠ [] ∧ 1 ≤ wc9e.cursor ∧ wc9e.selected.Value = [] ∧
      wc9e.sm.pos ≠ wc9e.cursor - 1) ∧
    TrimSuffix wc9e = some { wc9e with sm := { string := [], pos := 0 } } :=
  ⟨⟨by decide, by decide, by decide, by decide⟩,
    c9_orphan_cleared wc9e (by decide) (by decide) (by decide) (by decide)⟩

end Completion

theorem c10_witness :
    ((['a', ' ', 'b'] : List Char) ≠ [] ∧ 2 ≤ (['a', ' ', 'b'] : List Char).length) ∧
    (((tokeniseLine ['a', ' ', 'b'] 2).1.flatten = ['a', ' ', 'b'] ∧
      (tokeniseLine ['a', ' ', 'b'] 2).2.1 < (tokeniseLine ['a', ' ', 'b'] 2).1.length ∧
      (tokeniseLine ['a', ' ', 'b'] 2).2.2 ≤
        ((tokeniseLine ['a', ' ', 'b'] 2).1.getD
          (tokeniseLine ['a', ' ', 'b'] 2).2.1 []).length) ∧
     ((tokeniseSplitSpaces ['a', ' ', 'b'] 2).1.flatten = ['a', ' ', 'b'] ∧
      (tokeniseSplitSpaces ['a', ' ', 'b'] 2).2.1 <
        (tokeniseSplitSpaces ['a', ' ', 'b'] 2).1.length ∧
      (tokeniseSplitSpaces ['a', ' ', 'b'] 2).2.2 ≤
        ((tokeniseSplitSpaces ['a', ' ', 'b'] 2).1.getD
          (tokeniseSplitSpaces ['a', ' ', 'b'] 2).2.1 []).length)) ∧
    (tokeniseLine [] 7 = ([], 0, 0) ∧ tokeniseSplitSpaces [] 7 = ([], 0, 0)) :=
  ⟨⟨by decide, by decide⟩,
    c10_tokenise_invariants.1 ['a', ' ', 'b'] 2 (by decide) (by decide),
    c10_tokenise_invariants.2 7⟩
